import Mathlib

/-!
Verification of the cornucopia query-file parser (given as `src/parser.rs`).

This file gives a shallow embedding of `src/parser.rs`, a parser for files
that mix SQL statements with a comment-based annotation language.  The Rust
source is written with the `chumsky` 0.9 parser-combinator library, so the
embedding has two layers:

1. a faithful model of the chumsky 0.9 combinators actually used by the
   source (`just`, `filter`, `none_of`, `one_of`, `or`, `then`, `repeated`,
   `at_least(1)`, `or_not`, `rewind`, `separated_by` with
   `allow_leading`/`allow_trailing`, `delimited_by`, `map_with_span`,
   `end`).  chumsky 0.9 parsers are PEG-style: ordered choice with full
   backtracking on failure of an alternative, greedy repetition, and
   `Parser::parse` does *not* implicitly require the whole input to be
   consumed (which is why the source adds an explicit `end()` at the top
   level only).  A parser is modelled as a function from a state
   (remaining input as a char list, current offset) to an optional
   (output, new state); `none` is parse failure.  Offsets count characters
   (the inputs of interest are ASCII, where chumsky's byte spans coincide
   with character counts).

2. direct translations of the definitions of `src/parser.rs` on top of
   that layer, keeping the source's names wherever the identifier is
   usable here (`TypeAnnotation`/`QueryAnnotation` appear as
   `TypeAnnot`/`QueryAnnot`, and the Rust span field `end` as `stop`,
   purely for identifier-availability reasons).

Rust `panic` sites (`unwrap` in `QuerySql::parser`, and the `usize`
subtractions `start - sql_start - 1` / `end - sql_start - 1`, which panic
on underflow in debug builds) are modelled by an explicit `Option`: the
normalization step returns `none` exactly when the corresponding Rust code
would panic.
-/

/-- Parser state: remaining input and the current offset from the start. -/
abbrev PState : Type := List Char × Nat

/-- A chumsky parser over `char` with output `α`: `none` is failure; on
success the remaining input and advanced offset are returned.  Failure of
an alternative never consumes input (the caller keeps its own state), which
models chumsky 0.9's automatic backtracking. -/
abbrev P (α : Type) : Type := PState → Option (α × PState)

/-- Model of `just(s)` for a string `s`: match the exact character sequence. -/
def pjust (cs : List Char) : P Unit := fun s =>
  if cs.isPrefixOf s.1 then some ((), (s.1.drop cs.length, s.2 + cs.length)) else none

/-- Model of `filter(f)`: a single character satisfying `f`. -/
def pfilter (f : Char → Bool) : P Char := fun s =>
  match s with
  | (c :: rest, n) => if f c then some (c, (rest, n + 1)) else none
  | ([], _) => none

/-- Model of `none_of(set)`: a single character not in `set`. -/
def noneOf (cs : List Char) : P Char :=
  pfilter (fun c => !cs.contains c)

/-- Model of `one_of(set)`: a single character in `set`. -/
def oneOf (cs : List Char) : P Char :=
  pfilter (fun c => cs.contains c)

/-- Model of `a.or(b)`: ordered choice with backtracking. -/
def por (p q : P α) : P α := fun s =>
  match p s with
  | some r => some r
  | none => q s

/-- Model of `a.then(b)`: sequencing, keeping both outputs. -/
def pthen (p : P α) (q : P β) : P (α × β) := fun s =>
  match p s with
  | some (a, s1) =>
    match q s1 with
    | some (b, s2) => some ((a, b), s2)
    | none => none
  | none => none

/-- Model of `p.map(f)`. -/
def pmap (p : P α) (f : α → β) : P β := fun s =>
  match p s with
  | some (a, s1) => some (f a, s1)
  | none => none

/-- Model of `a.ignore_then(b)`: sequence, keep the second output. -/
def ignoreThen (p : P α) (q : P β) : P β :=
  pmap (pthen p q) Prod.snd

/-- Model of `a.then_ignore(b)`: sequence, keep the first output. -/
def thenIgnore (p : P α) (q : P β) : P α :=
  pmap (pthen p q) Prod.fst

/-- Model of `p.ignored()`. -/
def pignored (p : P α) : P Unit :=
  pmap p (fun _ => ())

/-- Model of `p.or_not()`: optional; never fails. -/
def orNot (p : P α) : P (Option α) := fun s =>
  match p s with
  | some (a, s1) => some (some a, s1)
  | none => some (none, s)

/-- Model of `p.rewind()`: parse `p`, then reset the input to before `p` ran. -/
def prewind (p : P α) : P α := fun s =>
  match p s with
  | some (a, _) => some (a, s)
  | none => none

/-- Model of `p.map_with_span(f)`: `f` also receives the start and end offsets of
the region `p` consumed. -/
def mapWithSpan (p : P α) (f : α → Nat → Nat → β) : P β := fun s =>
  match p s with
  | some (a, s1) => some (f a s.2 s1.2, s1)
  | none => none

/-- Fuelled worker for `repeated`: greedily apply `p` until it fails.
Every repeated parser in the source consumes at least one character on
success, so fuel `input length + 1` (supplied by `prepeated`) is never
exhausted before `p` fails. -/
def prepeatedAux (p : P α) : Nat → PState → List α × PState
  | 0, s => ([], s)
  | fuel + 1, s =>
    match p s with
    | none => ([], s)
    | some (a, s1) =>
      let r := prepeatedAux p fuel s1
      (a :: r.1, r.2)

/-- Model of `p.repeated()`: zero or more, greedy; never fails. -/
def prepeated (p : P α) : P (List α) := fun s =>
  some (prepeatedAux p (s.1.length + 1) s)

/-- Model of `at_least(1)` applied to a repetition: fail unless at least one item
was collected. -/
def atLeast1 (p : P (List α)) : P (List α) := fun s =>
  match p s with
  | some (as, s1) => if as.length ≥ 1 then some (as, s1) else none
  | none => none

/-- Model of `p.delimited_by(l, r)`: `l`, then `p`, then `r`, keeping `p`'s output. -/
def delimitedBy (p : P α) (l : P β) (r : P γ) : P α :=
  ignoreThen l (thenIgnore p r)

/-- Fuelled worker for the `separated_by` loop: greedily apply
(separator, item) pairs; a failing pair is rewound whole. -/
def sepByLoop (item : P α) (sep : P β) : Nat → PState → List α × PState
  | 0, s => ([], s)
  | fuel + 1, s =>
    match (ignoreThen sep item) s with
    | none => ([], s)
    | some (a, s1) =>
      let r := sepByLoop item sep fuel s1
      (a :: r.1, r.2)

/-- Model of `item.separated_by(sep)` with optional `allow_leading` /
`allow_trailing`, default `at_least(0)` (as in all three call sites of the
source): with `lead`, one leading separator is permitted (and kept even
when no item follows); items separated by `sep` are then collected
greedily; with `trail`, one trailing separator is permitted.  Never
fails.  `sepByTail` is the part after the optional leading separator. -/
def sepByTail (item : P α) (sep : P β) (trail : Bool) : P (List α) := fun s0 =>
  match item s0 with
  | none => some ([], s0)
  | some (a, s1) =>
    let r := sepByLoop item sep (s1.1.length + 1) s1
    let s3 := if trail then (match sep r.2 with | some (_, s2) => s2 | none => r.2) else r.2
    some (a :: r.1, s3)

/-- Model of `item.separated_by(sep)`, continued: dispatch on `allow_leading`. -/
def sepBy (item : P α) (sep : P β) (lead trail : Bool) : P (List α) := fun s =>
  sepByTail item sep trail
    (if lead then (match sep s with | some (_, s1) => s1 | none => s) else s)

/-- Model of `end()`: succeed only at end of input. -/
def pend : P Unit := fun s =>
  if s.1.isEmpty then some ((), s) else none

/-! ## `Parsed<T>`: span-tagged values (`src/parser.rs` lines 9-56) -/

/-- Model of `Parsed<T>`: a value plus the span it was parsed from.  The Rust field
`end` is called `stop` here. -/
structure Parsed (α : Type) where
  start : Nat
  stop : Nat
  value : α
deriving Repr, DecidableEq

/-- Model of `impl PartialEq for Parsed`: equality solely on `value`. -/
def Parsed.beq [BEq α] (a b : Parsed α) : Bool :=
  a.value == b.value

/-- Model of `impl Ord for Parsed`: comparison solely on `value`. -/
def Parsed.cmp [Ord α] (a b : Parsed α) : Ordering :=
  compare a.value b.value

/-- Model of `impl Hash for Parsed`: hashing solely on `value`; modelled for an
arbitrary hash function on the inner type. -/
def Parsed.hashVia (h : α → UInt64) (a : Parsed α) : UInt64 :=
  h a.value

/-- Model of `Parsed::map`: transform the value, keep the span. -/
def Parsed.map (a : Parsed α) (f : α → β) : Parsed β :=
  { start := a.start, stop := a.stop, value := f a.value }

/-! ## Lexical primitives (`src/parser.rs` lines 58-89) -/

/-- Model of `ident()`: one ASCII letter, then ASCII alphanumerics or `_`,
collected with its span.  (Rust `is_ascii_alphabetic` /
`is_ascii_alphanumeric` are `Char.isAlpha` / `Char.isAlphanum`, which are
ASCII-only.) -/
def ident : P (Parsed String) :=
  mapWithSpan
    (pthen (pfilter (fun c => c.isAlpha))
      (prepeated (pfilter (fun c => c.isAlphanum || c == '_'))))
    (fun cv st en => { start := st, stop := en, value := (cv.1 :: cv.2).asString })

/-- Model of `ln()`: `just("\n").or(just("\n\r")).ignored()`. -/
def ln : P Unit :=
  pignored (por (pjust ['\n']) (pjust ['\n', '\r']))

/-- Model of `space()`: zero or more non-`'\n'` whitespace characters.  (Rust
`char::is_whitespace` is Unicode white space; on the ASCII repertoire all
relevant inputs use, it agrees with `Char.isWhitespace`.) -/
def space : P Unit :=
  pignored (prepeated (pfilter (fun c => c.isWhitespace && c != '\n')))

/-- Model of `blank()`: whitespace or ordinary `--` comments (a `--` *not*
immediately followed by `:` or `!`, then to end of line), repeated. -/
def blank : P Unit :=
  pignored (prepeated
    (por (pignored (pfilter (fun c => c.isWhitespace)))
      (pignored (pthen (pthen (pjust ['-', '-']) (prewind (noneOf [':', '!'])))
        (prepeated (noneOf ['\n']))))))

/-! ## Field lists and type annotations (`src/parser.rs` lines 91-132) -/

/-- Model of `NullableIdent` (lines 91-96). -/
structure NullableIdent where
  name : Parsed String
  nullable : Bool
  inner_nullable : Bool
deriving Repr, DecidableEq

/-- One entry of a field list:
`space().ignore_then(ident()).then(just('?').or_not()).then(just("[?]").or_not()).map(...).then_ignore(space())`. -/
def nullableIdentEntry : P NullableIdent :=
  thenIgnore
    (pmap
      (pthen (pthen (ignoreThen space ident) (orNot (pjust ['?'])))
        (orNot (pjust ['[', '?', ']'])))
      (fun x =>
        { name := x.1.1, nullable := x.1.2.isSome, inner_nullable := x.2.isSome }))
    space

/-- Model of `parse_nullable_ident()` (lines 98-112): a parenthesized,
comma-separated, trailing-comma-tolerant field list. -/
def parse_nullable_ident : P (List NullableIdent) :=
  delimitedBy (sepBy nullableIdentEntry (pjust [',']) false true)
    (pjust ['(']) (pjust [')'])

/-- Model of `TypeAnnotation` (lines 114-118); named `TypeAnnot` here. -/
structure TypeAnnot where
  name : Parsed String
  fields : List NullableIdent
deriving Repr, DecidableEq

/-- Model of `TypeAnnotation::parser` (lines 120-132): `--:`, space, identifier,
space, optional field list (absent means empty). -/
def TypeAnnot.parser : P TypeAnnot :=
  pmap
    (pthen (thenIgnore (ignoreThen (ignoreThen (pjust ['-', '-', ':']) space) ident) space)
      (orNot parse_nullable_ident))
    (fun x => { name := x.1, fields := x.2.getD [] })

/-! ## Query SQL (`src/parser.rs` lines 134-231) -/

/-- Model of `QuerySql` (lines 134-138). -/
structure QuerySql where
  sql_str : String
  bind_params : List (Parsed String)
deriving Repr, DecidableEq

/-- Model of `"..."` double-quoted constant (lines 145-149). -/
def QuerySql.constant : P Unit :=
  pignored (delimitedBy (prepeated (noneOf ['"'])) (pjust ['"']) (pjust ['"']))

/-- Model of `'...'` single-quoted string (lines 150-154). -/
def QuerySql.string : P Unit :=
  pignored (delimitedBy (prepeated (noneOf ['\''])) (pjust ['\'']) (pjust ['\'']))

/-- Model of `e'...'` / `E'...'` C-style escaped string (lines 155-162): interior
treats `\'` and `''` as escapes. -/
def QuerySql.c_style_string : P Unit :=
  pignored (delimitedBy
    (prepeated
      (por (pignored (por (pjust ['\\', '\'']) (pjust ['\'', '\''])))
        (pignored (noneOf ['\'']))))
    (por (pjust ['e', '\'']) (pjust ['E', '\'']))
    (pjust ['\'']))

/-- Model of `dollar_tag` (line 164): `just("$").then(none_of("$").repeated()).then(just("$"))`. -/
def QuerySql.dollar_tag : P ((Unit × List Char) × Unit) :=
  pthen (pthen (pjust ['$']) (prepeated (noneOf ['$']))) (pjust ['$'])

/-- Model of `dollar_quoted` (lines 165-168): a run of non-`$` characters delimited
by two `dollar_tag`s (the closing tag is *any* `$...$`, not necessarily
equal to the opening one). -/
def QuerySql.dollar_quoted : P Unit :=
  pignored (delimitedBy (prepeated (noneOf ['$'])) QuerySql.dollar_tag QuerySql.dollar_tag)

/-- Model of `QuerySql::sql_escaping` (lines 142-181): one or more runs of opaque
quoted constructs, a bare `e`/`E` not followed by `'`, or ordinary
characters outside `"'":$eE"`. -/
def QuerySql.sql_escaping : P Unit :=
  pignored (atLeast1 (prepeated
    (por QuerySql.c_style_string
      (por QuerySql.string
        (por QuerySql.constant
          (por QuerySql.dollar_quoted
            (por (pignored (pthen (oneOf ['e', 'E']) (prewind (noneOf ['\'']))))
              (pignored (noneOf ['"', '\'', ':', '$', 'e', 'E'])))))))))

/-- Model of `QuerySql::parse_bind` (lines 184-190):
`just(':').ignore_then(ident()).separated_by(sql_escaping()).allow_leading().allow_trailing()`. -/
def QuerySql.parse_bind : P (List (Parsed String)) :=
  sepBy (ignoreThen (pjust [':']) ident) QuerySql.sql_escaping true true

/-- Lexicographic character-list comparison: Rust's `Ord` for `String`
(byte order, which agrees with char order on ASCII). -/
def cmpChars : List Char → List Char → Ordering
  | [], [] => .eq
  | [], _ :: _ => .lt
  | _ :: _, [] => .gt
  | a :: as, b :: bs => if a < b then .lt else if b < a then .gt else cmpChars as bs

/-- Insert into a list sorted by `Parsed` order (= value order). -/
def insertByValue (x : Parsed String) : List (Parsed String) → List (Parsed String)
  | [] => [x]
  | y :: t =>
    if (cmpChars x.value.toList y.value.toList).isLE then x :: y :: t
    else y :: insertByValue x t

/-- Model of `deduped_bind_params.sort_unstable()` (line 212): sorting by the
`Parsed` order, i.e. by value.  (Insertion sort; `sort_unstable` leaves
the relative order of value-equal elements unspecified, and nothing
downstream observes it: only the values of the sorted list are used.) -/
def sortByValue : List (Parsed String) → List (Parsed String)
  | [] => []
  | a :: t => insertByValue a (sortByValue t)

/-- Model of `Vec::dedup` worker: drop elements equal (by `Parsed` equality, i.e.
value equality) to the last kept element. -/
def dedupAux (prev : Parsed String) : List (Parsed String) → List (Parsed String)
  | [] => []
  | b :: t => if prev.value == b.value then dedupAux prev t else b :: dedupAux b t

/-- Model of `deduped_bind_params.dedup()` (line 213): remove consecutive
duplicates, keeping the first of each run. -/
def dedupByValue : List (Parsed String) → List (Parsed String)
  | [] => []
  | a :: t => a :: dedupAux a t

/-- Model of `iter().position(pred)`. -/
def positionBy (p : α → Bool) : List α → Option Nat
  | [] => none
  | a :: t => if p a then some 0 else (positionBy p t).map (· + 1)

/-- Model of the Rust formatting of a dollar sign followed by the decimal digits of `n`. -/
def formatDollar (n : Nat) : List Char :=
  '$' :: Nat.toDigits 10 n

/-- Model of `String::replace_range(start..=stop, repl)` on a char list. -/
def replaceRange (l : List Char) (start stop : Nat) (repl : List Char) : List Char :=
  l.take start ++ repl ++ l.drop (stop + 1)

/-- One iteration of the normalization loop (lines 215-223): find the
bind parameter's canonical index in the sorted-deduplicated list and
replace its `:name` occurrence by `$index+1`.  Returns `none` exactly
where the Rust code panics: the `position(..).unwrap()` (line 219) finds
no index, or `start - sql_start - 1` / `end - sql_start - 1` (lines
220-221) underflow. -/
def QuerySql.normalizeStep (sqlStart : Nat) (deduped : List (Parsed String))
    (sql : List Char) (bp : Parsed String) : Option (List Char) :=
  match positionBy (fun x => x.value == bp.value) deduped with
  | none => none
  | some index =>
    if bp.start < sqlStart + 1 ∨ bp.stop < sqlStart + 1 then none
    else
      some (replaceRange sql (bp.start - sqlStart - 1) (bp.stop - sqlStart - 1)
        (formatDollar (index + 1)))

/-- The rewrite loop (lines 215-223), over the bind parameters in reverse
occurrence order. -/
def QuerySql.rewriteLoop (sqlStart : Nat) (deduped : List (Parsed String)) :
    List (Parsed String) → List Char → Option (List Char)
  | [], sql => some sql
  | bp :: rest, sql =>
    match QuerySql.normalizeStep sqlStart deduped sql bp with
    | none => none
    | some sql1 => QuerySql.rewriteLoop sqlStart deduped rest sql1

/-- The body of the `map_with_span` closure of `QuerySql::parser` (lines
197-228): parse the binds out of the captured statement text (the
`.unwrap()` at line 201 is the outer `none` if that parse fails — it never
does), shift their spans by the statement's start offset, sort and
deduplicate a copy, and rewrite each occurrence right-to-left. -/
def QuerySql.mk' (sqlChars : List Char) (sqlStart : Nat) : Option QuerySql :=
  match QuerySql.parse_bind (sqlChars, 0) with
  | none => none
  | some (bs, _) =>
    let bind_params := bs.map (fun bp =>
      { start := bp.start + sqlStart, stop := bp.stop + sqlStart, value := bp.value })
    let deduped := dedupByValue (sortByValue bind_params)
    match QuerySql.rewriteLoop sqlStart deduped bind_params.reverse sqlChars with
    | none => none
    | some sql1 => some { sql_str := sql1.asString, bind_params := bind_params }

/-- Model of `QuerySql::parser` (lines 192-230): capture everything up to a `;`
(the `;` is consumed but not part of the captured text), then normalize.
The `Option` in the output is the panic channel of the closure. -/
def QuerySql.parserRun : P (Option QuerySql) :=
  mapWithSpan (thenIgnore (prepeated (noneOf [';'])) (pjust [';']))
    (fun sqlChars st _en => QuerySql.mk' sqlChars st)

/-! ## Query and annotations (`src/parser.rs` lines 233-325) -/

/-- Model of `QueryDataStruct` (lines 249-253). -/
inductive QueryDataStruct where
  | implicit (idents : List NullableIdent)
  | named (name : Parsed String)
deriving Repr, DecidableEq

/-- Model of `impl Default for QueryDataStruct` (lines 284-288). -/
def QueryDataStruct.default : QueryDataStruct :=
  .implicit []

/-- Model of `QueryDataStruct::parser` (lines 290-296): a field list, or a bare
identifier reference. -/
def QueryDataStruct.parser : P QueryDataStruct :=
  por (pmap parse_nullable_ident QueryDataStruct.implicit)
    (pmap ident QueryDataStruct.named)

/-- Model of `QueryAnnotation` (lines 298-303); named `QueryAnnot` here. -/
structure QueryAnnot where
  name : Parsed String
  param : QueryDataStruct
  row : QueryDataStruct
deriving Repr, DecidableEq

/-- Model of `QueryAnnotation::parser` (lines 305-325): `--!`, space, identifier,
space, optional param struct, space, optional `:` space row struct;
omitted structs default to `Implicit` with no fields. -/
def QueryAnnot.parser : P QueryAnnot :=
  pmap
    (pthen
      (pthen (thenIgnore (ignoreThen (ignoreThen (pjust ['-', '-', '!']) space) ident) space)
        (thenIgnore (orNot QueryDataStruct.parser) space))
      (orNot (ignoreThen (pjust [':']) (ignoreThen space QueryDataStruct.parser))))
    (fun x =>
      { name := x.1.1, param := x.1.2.getD QueryDataStruct.default,
        row := x.2.getD QueryDataStruct.default })

/-- Model of `Query` (lines 233-237); the Rust field `annotation` is `annot` here. -/
structure Query where
  annot : QueryAnnot
  sql : QuerySql
deriving Repr, DecidableEq

/-- Model of `Query::parser` (lines 239-247): annotation, space, line terminator,
SQL body.  The `Option` output is the panic channel inherited from
`QuerySql::parser`. -/
def Query.parserRun : P (Option Query) :=
  pmap (pthen (thenIgnore (thenIgnore QueryAnnot.parser space) ln) QuerySql.parserRun)
    (fun x => x.2.map (fun q => { annot := x.1, sql := q }))

/-! ## Named-type resolution (`src/parser.rs` lines 255-282) -/

/-- Model of `heck::ToUpperCamelCase` (an external crate) as used on
identifiers matched by `ident()`: split on `_`, capitalize each word's
first character and lowercase the rest.  No claim depends on its exact
behavior. -/
def splitOnUnderscore : List Char → List (List Char)
  | [] => [[]]
  | a :: t =>
    if a = '_' then [] :: splitOnUnderscore t
    else
      match splitOnUnderscore t with
      | [] => [[a]]
      | w :: ws => (a :: w) :: ws

/-- Capitalize one word for camel-casing. -/
def capitalizeWord : List Char → List Char
  | [] => []
  | c :: t => c.toUpper :: t.map Char.toLower

/-- Model of `to_upper_camel_case` on a string. -/
def upperCamelCase (s : String) : String :=
  (((splitOnUnderscore s.toList).map capitalizeWord).flatten).asString

/-- Model of `QueryDataStruct::name_and_fields` (lines 256-281): for `Implicit`,
the given fields and the camel-cased query name plus suffix; for `Named`,
a linear `find_map` over the registered type annotations for the first
whose name equals the reference (by `Parsed` equality, i.e. value
equality), defaulting to the empty field list. -/
def QueryDataStruct.name_and_fields (self : QueryDataStruct)
    (registered_structs : List TypeAnnot) (query_name : Parsed String)
    (name_suffix : Option String) : List NullableIdent × Parsed String :=
  match self with
  | .implicit idents =>
    (idents, query_name.map (fun x =>
      upperCamelCase x ++ (match name_suffix with | some suf => suf | none => "")))
  | .named name =>
    ((registered_structs.findSome? (fun it =>
        if it.name.value == name.value then some it.fields else none)).getD [],
      name)

/-! ## Module assembly (`src/parser.rs` lines 327-379) -/

/-- Model of `Statement` (lines 327-331). -/
inductive Statement where
  | type (t : TypeAnnot)
  | query (q : Query)
deriving Repr, DecidableEq

/-- Model of `ParsedModule` (lines 333-337). -/
structure ParsedModule where
  types : List TypeAnnot
  queries : List Query
deriving Repr, DecidableEq

/-- Model of `FromIterator<Statement> for ParsedModule` (lines 339-351): partition
a declaration sequence, preserving relative order within each group. -/
def ParsedModule.fromStatements (l : List Statement) : ParsedModule :=
  l.foldl
    (fun m st =>
      match st with
      | .type t => { m with types := m.types ++ [t] }
      | .query q => { m with queries := m.queries ++ [q] })
    { types := [], queries := [] }

/-- Model of `Error` (lines 370-379): the aggregate diagnostic for one file.  The
`err` payload (chumsky's collected `Vec<Simple<char>>`) is not modelled;
only the carried path is. -/
structure Error where
  path : String
deriving Repr, DecidableEq

/-- One top-level declaration: a type annotation or a query (lines
355-357).  The `Option` output is the panic channel. -/
def statementP : P (Option Statement) :=
  por (pmap TypeAnnot.parser (fun t => some (Statement.type t)))
    (pmap Query.parserRun (fun oq => oq.map Statement.query))

/-- The top-level grammar (lines 355-361): declarations separated by
`blank`, leading and trailing `blank` allowed, then end of input. -/
def moduleDecls : P (List (Option Statement)) :=
  sepBy statementP blank true true

/-- Run the top-level grammar (with its `end()`) on a whole input. -/
def moduleRun (input : String) : Option (List (Option Statement) × PState) :=
  (thenIgnore moduleDecls pend) (input.toList, 0)

/-- Sequence a list of options (`none` if any element is `none`). -/
def optionList : List (Option α) → Option (List α)
  | [] => some []
  | none :: _ => none
  | some a :: t => (optionList t).map (a :: ·)

/-- Model of `parse_query_module` (lines 354-368): the outer `Option` in the `ok`
payload is the panic channel (proved unreachable below); parse failure is
wrapped in an `Error` carrying the file path. -/
def parse_query_module (path input : String) : Except Error (Option ParsedModule) :=
  match moduleRun input with
  | some (stmts, _) => .ok ((optionList stmts).map ParsedModule.fromStatements)
  | none => .error { path := path }

/-- Name projection used to state module-level parses compactly: the type
names and query names of a successfully parsed module. -/
def declNames : Except Error (Option ParsedModule) → Option (List String × List String)
  | .ok (some m) =>
    some (m.types.map (fun t => t.name.value), m.queries.map (fun q => q.annot.name.value))
  | _ => none

/-! ## Claim theorems on concrete inputs -/

/-- Input for claim C1: bind parameters `:a`, `:b`, `:a` in that order. -/
def c1input : String := "SELECT :a, :b, :a;"

/-- Claim C1. For a query-SQL statement whose bind parameters appear as
`:a`, `:b`, `:a` in that order, `QuerySql::parser` rewrites the three
occurrences in place to `$1`, `$2`, `$1` (indices assigned by sorting the
recorded names lexicographically and removing consecutive duplicates, so
`a ↦ 1`, `b ↦ 2`), and `bind_params` holds exactly three span-tagged
entries in occurrence order, the first and third with value `"a"`. -/
theorem querySql_parser_rewrites_duplicate_binds :
    QuerySql.parserRun (c1input.toList, 0) =
      some (some
        { sql_str := "SELECT $1, $2, $1",
          bind_params :=
            [{ start := 8, stop := 9, value := "a" },
             { start := 12, stop := 13, value := "b" },
             { start := 16, stop := 17, value := "a" }] },
        ([], 18)) := by
  rfl

/-- Input for claim C2, single-quoted literal case. -/
def c2inputSingle : String := "SELECT 'x:foo';"

/-- Input for claim C2, dollar-quoted literal case. -/
def c2inputDollar : String := "SELECT $tag$:foo$tag$;"

/-- Input for claim C2, C-style escaped string case. -/
def c2inputCStyle : String := "SELECT E'a:foo';"

/-- Claim C2. A `:ident` sequence inside an opaque quoted construct is never
extracted as a bind parameter: `SELECT 'x:foo';` yields zero bind
parameters and an unchanged statement body, and `SELECT $tag$:foo$tag$;`
and `SELECT E'a:foo';` also yield zero bind parameters. -/
theorem binds_inside_quoted_constructs_not_extracted :
    QuerySql.parserRun (c2inputSingle.toList, 0) =
        some (some { sql_str := "SELECT 'x:foo'", bind_params := [] }, ([], 15))
      ∧ QuerySql.parserRun (c2inputDollar.toList, 0) =
        some (some { sql_str := "SELECT $tag$:foo$tag$", bind_params := [] }, ([], 22))
      ∧ QuerySql.parserRun (c2inputCStyle.toList, 0) =
        some (some { sql_str := "SELECT E'a:foo'", bind_params := [] }, ([], 16)) := by
  exact ⟨rfl, rfl, rfl⟩

/-- Statement input for the C3 counterexample: a dollar-quoted region with
the *same* opening and closing tag whose content contains a `$`. -/
def c3sameTagInput : String := "SELECT $a$ x $$ :y $a$;"

/-- Claim C3, counterexample. The claim says a dollar-quoted string opened
by `$tag$` is terminated *only* by the exact same `$tag$` sequence, with
all content in between opaque regardless of the characters inside.  Both
parts fail on the code: (1) the scan accepts `$a$x$b$` — opened by `$a$`,
terminated by the different tag `$b$` — as one complete dollar-quoted
construct consuming the whole input; (2) in
`SELECT $a$ x $$ :y $a$;` the region between the two `$a$` delimiters
contains a `$`, the scan closes the construct early at `$$`, and `:y` —
which lies between the `$a$` delimiters — *is* extracted as a bind
parameter and rewritten. -/
theorem dollar_quoted_mismatched_tag_counterexample :
    QuerySql.dollar_quoted (("$a$x$b$").toList, 0) = some ((), ([], 7))
      ∧ QuerySql.parserRun (c3sameTagInput.toList, 0) =
        some (some
          { sql_str := "SELECT $a$ x $$ $1 $a$",
            bind_params := [{ start := 17, stop := 18, value := "y" }] },
          ([], 23)) := by
  exact ⟨rfl, rfl⟩

/-- Claim C6. `ln` succeeds exactly on input beginning with a line
terminator and consumes that terminator, failing on all other input.  The
two terminator encodings accepted by the source are `"\n"` and `"\n\r"`;
since the second begins with the first and `or` is ordered choice, the
parser consumes exactly the one-character terminator `"\n"` whenever the
input starts with either encoding, and fails otherwise — in particular on
a lone `"\r"` or on `"\r\n"`. -/
theorem ln_line_terminator (l : List Char) (n : Nat) :
    ln (l, n) = if l.head? = some '\n' then some ((), (l.tail, n + 1)) else none := by
  match l with
  | [] => rfl
  | c :: rest =>
    by_cases hc : c = '\n'
    · subst hc
      simp [ln, pignored, pmap, por, pjust, List.isPrefixOf]
    · have h1 : ('\n' == c) = false := beq_eq_false_iff_ne.mpr (Ne.symm hc)
      have h2 : (some c = some '\n') = False := by
        simp [hc]
      simp [ln, pignored, pmap, por, pjust, List.isPrefixOf, h1, h2]

/-- Input for claim C7: a query header with no param or row spec. -/
def c7input : String := "--! get_user\nSELECT 1;"

/-- Claim C7. When a query header omits its param spec and/or row spec, each
omitted spec gets `QueryDataStruct::default()`, which is `Implicit` with
an empty field list; in particular `"--! get_user"` followed by a line
terminator and `"SELECT 1;"` parses to a query whose param and row are
both `Implicit` with empty fields. -/
theorem query_annot_omitted_specs_default_implicit :
    QueryDataStruct.default = QueryDataStruct.implicit []
      ∧ Query.parserRun (c7input.toList, 0) =
        some (some
          { annot :=
              { name := { start := 4, stop := 12, value := "get_user" },
                param := QueryDataStruct.implicit [],
                row := QueryDataStruct.implicit [] },
            sql := { sql_str := "SELECT 1", bind_params := [] } },
          ([], 22)) := by
  exact ⟨rfl, rfl⟩

/-- Path used for the C8 module parses. -/
def c8path : String := "f.sql"

/-- Input for claim C8: a plain `--` comment between two declarations. -/
def c8inputPlain : String := "--: Foo(a)\n-- note\n--! q\nSELECT 1;"

/-- Input for claim C8: the same middle line prefixed `--:` instead. -/
def c8inputTypePrefix : String := "--: Foo(a)\n--: note\n--! q\nSELECT 1;"

/-- Input for claim C8: the same middle line prefixed `--!` instead. -/
def c8inputQueryPrefix : String := "--: Foo(a)\n--! note\n--! q\nSELECT 1;"

/-- Claim C8. A `--` not immediately followed by `:` or `!` is a transparent
ordinary comment inside `blank`: with a plain `-- note` line between two
declarations the file still parses to exactly those two declarations
(type `Foo`, query `q`), while the identical line prefixed `--:` parses
as a third declaration (a type named `note`), and prefixed `--!` parses
as the start of a query declaration named `note` (which then absorbs the
following text up to `;` as its SQL body). -/
theorem blank_comment_disambiguation :
    declNames (parse_query_module c8path c8inputPlain) = some (["Foo"], ["q"])
      ∧ declNames (parse_query_module c8path c8inputTypePrefix) =
        some (["Foo", "note"], ["q"])
      ∧ declNames (parse_query_module c8path c8inputQueryPrefix) =
        some (["Foo"], ["note"]) := by
  exact ⟨rfl, rfl, rfl⟩

/-- Claim C5. Equality, ordering and hashing of `Parsed<T>` depend only on
the inner value: `a == b` iff `a.value == b.value`, comparison equals the
comparison of the values, the hash equals the hash of the value, and the
span fields never influence any of the three. -/
theorem parsed_compare_value_only {α : Type} [BEq α] [Ord α]
    (h : α → UInt64) (a b : Parsed α) :
    Parsed.beq a b = (a.value == b.value)
      ∧ Parsed.cmp a b = compare a.value b.value
      ∧ Parsed.hashVia h a = h a.value
      ∧ (∀ a' b' : Parsed α, a'.value = a.value → b'.value = b.value →
          Parsed.beq a' b' = Parsed.beq a b
            ∧ Parsed.cmp a' b' = Parsed.cmp a b
            ∧ Parsed.hashVia h a' = Parsed.hashVia h a) := by
  refine ⟨rfl, rfl, rfl, ?_⟩
  intro a' b' ha hb
  simp [Parsed.beq, Parsed.cmp, Parsed.hashVia, ha, hb]

/-- Witness for C5: two `Parsed Nat` pairs with the same values but
entirely different spans compare identically. -/
theorem parsed_compare_value_only_witness :
    Parsed.beq ({ start := 7, stop := 8, value := 5 } : Parsed Nat)
        { start := 9, stop := 10, value := 5 } =
      Parsed.beq ({ start := 0, stop := 1, value := 5 } : Parsed Nat)
        { start := 2, stop := 3, value := 5 } :=
  ((parsed_compare_value_only (fun n => n.toUInt64)
      ({ start := 0, stop := 1, value := 5 } : Parsed Nat)
      { start := 2, stop := 3, value := 5 }).2.2.2
    { start := 7, stop := 8, value := 5 } { start := 9, stop := 10, value := 5 }
    rfl rfl).1

/-- The function `findSome?` over a list with no hit yields `none`. -/
theorem findSome?_eq_none_of_all_none {f : α → Option β} {l : List α}
    (h : ∀ x ∈ l, f x = none) : l.findSome? f = none := by
  induction l with
  | nil => rfl
  | cons a t ih =>
    rw [List.findSome?_cons]
    rw [h a (List.mem_cons_self a t)]
    exact ih (fun x hx => h x (List.mem_cons_of_mem a hx))

/-- Claim C4. For every `QueryDataStruct::Named(name)`: if no registered
type annotation's name equals `name` (by value), `name_and_fields`
returns the empty field list together with the referenced name itself —
and, being a total function into a plain pair, raises no error or
diagnostic; if a match exists, it returns the fields of the first
annotation in list order whose name equals `name`. -/
theorem name_and_fields_named_resolution (name : Parsed String)
    (structs : List TypeAnnot) (query_name : Parsed String) (suffix : Option String) :
    ((∀ t ∈ structs, t.name.value ≠ name.value) →
        QueryDataStruct.name_and_fields (.named name) structs query_name suffix =
          ([], name))
      ∧ (∀ pre t post, structs = pre ++ t :: post →
          (∀ u ∈ pre, u.name.value ≠ name.value) → t.name.value = name.value →
          QueryDataStruct.name_and_fields (.named name) structs query_name suffix =
            (t.fields, name)) := by
  constructor
  · intro hnone
    have hfind : structs.findSome? (fun it =>
        if it.name.value == name.value then some it.fields else none) = none := by
      apply findSome?_eq_none_of_all_none
      intro x hx
      simp [hnone x hx]
    show ((List.findSome? _ structs).getD [], name) = ([], name)
    rw [hfind]
    rfl
  · intro pre t post hsplit hpre ht
    subst hsplit
    have key : (pre ++ t :: post).findSome? (fun it =>
        if it.name.value == name.value then some it.fields else none) = some t.fields := by
      induction pre with
      | nil =>
        rw [List.nil_append, List.findSome?_cons]
        have hft : (t.name.value == name.value) = true := beq_iff_eq.mpr ht
        rw [hft]
        simp
      | cons a rest ih =>
        have ha : a.name.value ≠ name.value := hpre a (List.mem_cons_self a rest)
        have hfa : (a.name.value == name.value) = false := beq_eq_false_iff_ne.mpr ha
        rw [List.cons_append, List.findSome?_cons, hfa]
        simpa using ih (fun u hu => hpre u (List.mem_cons_of_mem a hu))
    show ((List.findSome? _ (pre ++ t :: post)).getD [], name) = (t.fields, name)
    rw [key]
    rfl

/-- Witness for C4: a reference to `Bar` against a single registered type
`Foo` resolves silently to the empty field list and the referenced name;
a reference to `Foo` against `[Baz, Foo(f1), Foo(f2)]` resolves to the
first `Foo`'s fields. -/
theorem name_and_fields_named_resolution_witness :
    QueryDataStruct.name_and_fields
        (.named { start := 0, stop := 3, value := "Bar" })
        [{ name := { start := 10, stop := 13, value := "Foo" }, fields := [] }]
        { start := 0, stop := 1, value := "q" } none =
      ([], { start := 0, stop := 3, value := "Bar" })
      ∧ QueryDataStruct.name_and_fields
        (.named { start := 0, stop := 3, value := "Foo" })
        [{ name := { start := 4, stop := 7, value := "Baz" }, fields := [] },
         { name := { start := 8, stop := 11, value := "Foo" },
           fields := [{ name := { start := 12, stop := 14, value := "f1" },
                        nullable := true, inner_nullable := false }] },
         { name := { start := 20, stop := 23, value := "Foo" }, fields := [] }]
        { start := 0, stop := 1, value := "q" } none =
      ([{ name := { start := 12, stop := 14, value := "f1" },
          nullable := true, inner_nullable := false }],
        { start := 0, stop := 3, value := "Foo" }) := by
  constructor
  · exact (name_and_fields_named_resolution
      { start := 0, stop := 3, value := "Bar" }
      [{ name := { start := 10, stop := 13, value := "Foo" }, fields := [] }]
      { start := 0, stop := 1, value := "q" } none).1 (by decide)
  · exact (name_and_fields_named_resolution
      { start := 0, stop := 3, value := "Foo" }
      [{ name := { start := 4, stop := 7, value := "Baz" }, fields := [] },
       { name := { start := 8, stop := 11, value := "Foo" },
         fields := [{ name := { start := 12, stop := 14, value := "f1" },
                      nullable := true, inner_nullable := false }] },
       { name := { start := 20, stop := 23, value := "Foo" }, fields := [] }]
      { start := 0, stop := 1, value := "q" } none).2
      [{ name := { start := 4, stop := 7, value := "Baz" }, fields := [] }]
      { name := { start := 8, stop := 11, value := "Foo" },
        fields := [{ name := { start := 12, stop := 14, value := "f1" },
                     nullable := true, inner_nullable := false }] }
      [{ name := { start := 20, stop := 23, value := "Foo" }, fields := [] }]
      rfl (by decide) rfl

/-- A greedy `none_of("$").repeated()` run consumes exactly the `$`-free
prefix and stops at the next `$` (given enough fuel, which `prepeated`
always supplies). -/
theorem prepeatedAux_noneOf_dollar (xs rest : List Char) (n fuel : Nat)
    (hx : ∀ c ∈ xs, c ≠ '$') (hf : xs.length < fuel) :
    prepeatedAux (noneOf ['$']) fuel (xs ++ '$' :: rest, n) =
      (xs, ('$' :: rest, n + xs.length)) := by
  induction xs generalizing fuel n with
  | nil =>
    match fuel, hf with
    | f + 1, _ =>
      simp [prepeatedAux, noneOf, pfilter, List.contains, List.elem]
  | cons c t ih =>
    match fuel, hf with
    | f + 1, hf =>
      have hc : c ≠ '$' := hx c (List.mem_cons_self c t)
      have hbc : (c == '$') = false := beq_eq_false_iff_ne.mpr hc
      have ht : ∀ d ∈ t, d ≠ '$' := fun d hd => hx d (List.mem_cons_of_mem c hd)
      have hlt : t.length < f := by
        have h2 : t.length + 1 < f + 1 := by simpa using hf
        omega
      have hstep : noneOf ['$'] ((c :: t) ++ '$' :: rest, n) =
          some (c, (t ++ '$' :: rest, n + 1)) := by
        simp [noneOf, pfilter, List.contains, List.elem, hbc]
      have hrec := ih (n + 1) f ht hlt
      simp only [prepeatedAux, hstep, hrec]
      simp only [List.length_cons]
      have harith : n + 1 + t.length = n + (t.length + 1) := by omega
      rw [harith]

/-- The model of `dollar_tag` on `$` + tag + `$` + rest consumes exactly the tag pair
when the tag is `$`-free. -/
theorem dollar_tag_run (t rest : List Char) (n : Nat) (ht : ∀ c ∈ t, c ≠ '$') :
    QuerySql.dollar_tag ('$' :: (t ++ '$' :: rest), n) =
      some ((((), t), ()), (rest, n + (t.length + 2))) := by
  have hopen : pjust ['$'] ('$' :: (t ++ '$' :: rest), n) =
      some ((), (t ++ '$' :: rest, n + 1)) := by
    simp [pjust, List.isPrefixOf]
  have hrun : prepeated (noneOf ['$']) (t ++ '$' :: rest, n + 1) =
      some (t, ('$' :: rest, n + 1 + t.length)) := by
    unfold prepeated
    rw [prepeatedAux_noneOf_dollar t rest (n + 1) _ ht (by simp; omega)]
  have hclose : pjust ['$'] ('$' :: rest, n + 1 + t.length) =
      some ((), (rest, n + 1 + t.length + 1)) := by
    simp [pjust, List.isPrefixOf]
  simp only [QuerySql.dollar_tag, pthen, hopen, hrun, hclose]
  have : n + 1 + t.length + 1 = n + (t.length + 2) := by omega
  rw [this]

/-- Statement input witnessing opacity of the C3 (amended) construct. -/
def c3opaqueInput : String := "SELECT $a$:foo$b$;"

/-- Claim C3, amended. In the quoting-aware scan, a dollar-quoted construct
is opened by `$tag$` (tag any run of non-`$` characters, including empty)
and terminated by the *next* `$tag'$` sequence, where `tag'` is likewise
any run of non-`$` characters — not necessarily equal to the opening tag;
the content between the delimiters, itself necessarily a run of non-`$`
characters, is treated as opaque, and no bind parameters are extracted
from it (witnessed at statement level by `SELECT $a$:foo$b$;`, which
yields zero bind parameters and an unchanged body). -/
theorem dollar_quoted_any_closing_tag (t1 body t2 rest : List Char) (n : Nat)
    (h1 : ∀ c ∈ t1, c ≠ '$') (h2 : ∀ c ∈ body, c ≠ '$') (h3 : ∀ c ∈ t2, c ≠ '$') :
    QuerySql.dollar_quoted
        ('$' :: (t1 ++ '$' :: (body ++ '$' :: (t2 ++ '$' :: rest))), n) =
      some ((), (rest, n + (t1.length + 2) + body.length + (t2.length + 2)))
      ∧ QuerySql.parserRun (c3opaqueInput.toList, 0) =
        some (some { sql_str := "SELECT $a$:foo$b$", bind_params := [] }, ([], 18)) := by
  constructor
  · have hopen := dollar_tag_run t1 (body ++ '$' :: (t2 ++ '$' :: rest)) n h1
    have hcontent : prepeated (noneOf ['$'])
        (body ++ '$' :: (t2 ++ '$' :: rest), n + (t1.length + 2)) =
        some (body, ('$' :: (t2 ++ '$' :: rest), n + (t1.length + 2) + body.length)) := by
      unfold prepeated
      rw [prepeatedAux_noneOf_dollar body (t2 ++ '$' :: rest) _ _ h2
        (by simp [List.length_append]; omega)]
    have hclose := dollar_tag_run t2 rest (n + (t1.length + 2) + body.length) h3
    simp only [QuerySql.dollar_quoted, delimitedBy, ignoreThen, thenIgnore, pignored,
      pmap, pthen, hopen, hcontent, hclose]
  · rfl

/-- Witness for C3 (amended): opening tag `a`, body `:x`, closing tag `b`. -/
theorem dollar_quoted_any_closing_tag_witness :
    QuerySql.dollar_quoted
        ('$' :: (['a'] ++ '$' :: ([':', 'x'] ++ '$' :: (['b'] ++ '$' :: []))), 0) =
      some ((), ([], 0 + (1 + 2) + 2 + (1 + 2)))
      ∧ QuerySql.parserRun (c3opaqueInput.toList, 0) =
        some (some { sql_str := "SELECT $a$:foo$b$", bind_params := [] }, ([], 18)) :=
  dollar_quoted_any_closing_tag ['a'] [':', 'x'] ['b'] [] 0
    (by decide) (by decide) (by decide)

/-! ## Generic facts about the combinator layer -/

/-- Destructure a successful `pthen`. -/
theorem pthen_elim {p : P α} {q : P β} {s s' : PState} {ab : α × β}
    (h : pthen p q s = some (ab, s')) :
    ∃ sm, p s = some (ab.1, sm) ∧ q sm = some (ab.2, s') := by
  unfold pthen at h
  split at h
  · rename_i a sm hp
    split at h
    · rename_i b s2 hq
      cases h
      exact ⟨sm, hp, hq⟩
    · exact absurd h (by simp)
  · exact absurd h (by simp)

/-- Destructure a successful `pmap`. -/
theorem pmap_elim {p : P α} {f : α → β} {s s' : PState} {b : β}
    (h : pmap p f s = some (b, s')) :
    ∃ a, p s = some (a, s') ∧ b = f a := by
  unfold pmap at h
  split at h
  · rename_i a sm hp
    cases h
    exact ⟨a, hp, rfl⟩
  · exact absurd h (by simp)

/-- Destructure a successful `ignoreThen`. -/
theorem ignoreThen_elim {p : P α} {q : P β} {s s' : PState} {b : β}
    (h : ignoreThen p q s = some (b, s')) :
    ∃ a sm, p s = some (a, sm) ∧ q sm = some (b, s') := by
  obtain ⟨ab, hab, hb⟩ := pmap_elim h
  obtain ⟨sm, hp, hq⟩ := pthen_elim hab
  exact ⟨ab.1, sm, hp, by rw [hb]; exact hq⟩

/-- Destructure a successful `thenIgnore`. -/
theorem thenIgnore_elim {p : P α} {q : P β} {s s' : PState} {a : α}
    (h : thenIgnore p q s = some (a, s')) :
    ∃ b sm, p s = some (a, sm) ∧ q sm = some (b, s') := by
  obtain ⟨ab, hab, ha⟩ := pmap_elim h
  obtain ⟨sm, hp, hq⟩ := pthen_elim hab
  exact ⟨ab.2, sm, by rw [ha]; exact hp, hq⟩

/-- A successful `pend` leaves the state unchanged and certifies that the
input is exhausted. -/
theorem pend_elim {s s' : PState} {u : Unit} (h : pend s = some (u, s')) :
    s' = s ∧ s.1 = [] := by
  unfold pend at h
  split at h
  · rename_i he
    cases h
    exact ⟨rfl, List.isEmpty_iff.mp he⟩
  · exact absurd h (by simp)

/-- The `sepBy` core never fails. -/
theorem sepByTail_isSome (item : P α) (sep : P β) (trail : Bool) (s0 : PState) :
    (sepByTail item sep trail s0).isSome = true := by
  unfold sepByTail
  split <;> simp

/-- The model `sepBy` never fails. -/
theorem sepBy_isSome (item : P α) (sep : P β) (lead trail : Bool) (s : PState) :
    (sepBy item sep lead trail s).isSome = true := by
  unfold sepBy
  exact sepByTail_isSome item sep trail _

/-- Every output of the `sepBy` loop comes from a successful run of the
item parser. -/
theorem sepByLoop_mem (item : P α) (sep : P β) (Q : α → Prop)
    (hitem : ∀ s a s', item s = some (a, s') → Q a) :
    ∀ fuel s, ∀ a ∈ (sepByLoop item sep fuel s).1, Q a := by
  intro fuel
  induction fuel with
  | zero =>
    intro s a ha
    simp [sepByLoop] at ha
  | succ f ih =>
    intro s a ha
    unfold sepByLoop at ha
    split at ha
    · simp at ha
    · rename_i a0 s1 heq
      rcases List.mem_cons.mp ha with h1 | h2
      · subst h1
        obtain ⟨b, sm, _, hq⟩ := ignoreThen_elim heq
        exact hitem _ _ _ hq
      · exact ih s1 a h2

/-- Every output of the `sepBy` core comes from a successful run of the
item parser. -/
theorem sepByTail_mem (item : P α) (sep : P β) (trail : Bool) (Q : α → Prop)
    (hitem : ∀ s a s', item s = some (a, s') → Q a)
    {s0 s' : PState} {as : List α}
    (h : sepByTail item sep trail s0 = some (as, s')) : ∀ a ∈ as, Q a := by
  unfold sepByTail at h
  split at h
  · cases h
    simp
  · rename_i a0 s1 heq
    cases h
    intro a ha
    rcases List.mem_cons.mp ha with h1 | h2
    · subst h1
      exact hitem _ _ _ heq
    · exact sepByLoop_mem item sep Q hitem _ s1 a h2

/-- Every output of `sepBy` comes from a successful run of the item
parser. -/
theorem sepBy_mem (item : P α) (sep : P β) (lead trail : Bool) (Q : α → Prop)
    (hitem : ∀ s a s', item s = some (a, s') → Q a)
    {s s' : PState} {as : List α}
    (h : sepBy item sep lead trail s = some (as, s')) : ∀ a ∈ as, Q a := by
  unfold sepBy at h
  exact sepByTail_mem item sep trail Q hitem h

/-- Offsets never decrease along a parser built from `prepeatedAux`,
provided the underlying parser never decreases them. -/
theorem prepeatedAux_offset_mono (p : P α)
    (hp : ∀ s a s', p s = some (a, s') → s.2 ≤ s'.2) :
    ∀ fuel s, s.2 ≤ (prepeatedAux p fuel s).2.2 := by
  intro fuel
  induction fuel with
  | zero =>
    intro s
    simp [prepeatedAux]
  | succ f ih =>
    intro s
    unfold prepeatedAux
    split
    · exact Nat.le_refl _
    · rename_i a s1 heq
      exact Nat.le_trans (hp s a s1 heq) (ih s1)

/-- A successful single-character `pfilter` advances the offset by one. -/
theorem pfilter_elim {f : Char → Bool} {s s' : PState} {c : Char}
    (h : pfilter f s = some (c, s')) : s'.2 = s.2 + 1 := by
  unfold pfilter at h
  split at h
  · rename_i c0 rest n
    split at h
    · cases h
      rfl
    · exact absurd h (by simp)
  · exact absurd h (by simp)

/-- A successful `pjust` advances the offset by the literal's length. -/
theorem pjust_elim {cs : List Char} {s s' : PState} {u : Unit}
    (h : pjust cs s = some (u, s')) : s'.2 = s.2 + cs.length := by
  unfold pjust at h
  split at h
  · cases h
    rfl
  · exact absurd h (by simp)

/-- Every bind parameter produced by the item parser of `parse_bind`
(`just(':').ignore_then(ident())`) starts at offset at least 1 (the
identifier is preceded by the consumed `:`) and spans at least one
character. -/
theorem bind_item_bounds {s s' : PState} {bp : Parsed String}
    (h : ignoreThen (pjust [':']) ident s = some (bp, s')) :
    s.2 + 1 ≤ bp.start ∧ bp.start + 1 ≤ bp.stop := by
  obtain ⟨u, sm, hcolon, hident⟩ := ignoreThen_elim h
  have hsm : sm.2 = s.2 + 1 := by simpa using pjust_elim hcolon
  unfold ident mapWithSpan at hident
  split at hident
  · rename_i cv s1 heq
    have hinj := Option.some.inj hident
    have hbp : bp = { start := sm.2, stop := s1.2, value := (cv.1 :: cv.2).asString } :=
      (congrArg Prod.fst hinj).symm
    obtain ⟨s2, hfil, hrep⟩ := pthen_elim heq
    have h1 : s2.2 = sm.2 + 1 := pfilter_elim hfil
    have h2 : s2.2 ≤ s1.2 := by
      have hmono := prepeatedAux_offset_mono
        (pfilter (fun c => c.isAlphanum || c == '_'))
        (fun s a s' hs => by simp [pfilter_elim hs])
        (s2.1.length + 1) s2
      unfold prepeated at hrep
      have hpair := Option.some.inj hrep
      have hsnd : (prepeatedAux (pfilter (fun c => c.isAlphanum || c == '_'))
          (s2.1.length + 1) s2).2 = s1 := congrArg Prod.snd hpair
      rw [← hsnd]
      exact hmono
    rw [hbp]
    refine ⟨?_, ?_⟩
    · show s.2 + 1 ≤ sm.2
      omega
    · show sm.2 + 1 ≤ s1.2
      omega
  · exact absurd hident (by simp)

/-- The model of `parse_bind` always succeeds, and every bind parameter it produces
satisfies the span bounds of `bind_item_bounds` (relative to a parse
started at offset 0). -/
theorem parse_bind_bounds {s s' : PState} {bs : List (Parsed String)}
    (h : QuerySql.parse_bind s = some (bs, s')) :
    ∀ bp ∈ bs, 1 ≤ bp.start ∧ bp.start + 1 ≤ bp.stop := by
  have := sepBy_mem (ignoreThen (pjust [':']) ident) QuerySql.sql_escaping true true
    (fun bp => 1 ≤ bp.start ∧ bp.start + 1 ≤ bp.stop)
    (fun s a s' hs => by
      obtain ⟨h1, h2⟩ := bind_item_bounds hs
      exact ⟨by omega, h2⟩)
    h
  exact this

/-- Membership through `insertByValue`. -/
theorem mem_insertByValue (x a : Parsed String) (l : List (Parsed String)) :
    a ∈ insertByValue x l ↔ a = x ∨ a ∈ l := by
  induction l with
  | nil => simp [insertByValue]
  | cons y t ih =>
    unfold insertByValue
    split
    · simp
    · simp only [List.mem_cons, ih]
      tauto

/-- Sorting preserves membership. -/
theorem mem_sortByValue (a : Parsed String) (l : List (Parsed String)) :
    a ∈ sortByValue l ↔ a ∈ l := by
  induction l with
  | nil => simp [sortByValue]
  | cons y t ih =>
    unfold sortByValue
    rw [mem_insertByValue]
    simp [ih]

/-- Consecutive deduplication keeps, for every element of the input, some
element with the same value. -/
theorem dedupAux_value_mem (l : List (Parsed String)) :
    ∀ prev x, x ∈ l →
      x.value = prev.value ∨ ∃ y ∈ dedupAux prev l, y.value = x.value := by
  induction l with
  | nil =>
    intro prev x hx
    simp at hx
  | cons b t ih =>
    intro prev x hx
    unfold dedupAux
    rcases List.mem_cons.mp hx with h1 | h2
    · subst h1
      split
      · rename_i heq
        left
        exact (beq_iff_eq.mp heq).symm
      · right
        exact ⟨x, List.mem_cons_self x _, rfl⟩
    · split
      · rename_i heq
        rcases ih prev x h2 with ha | ⟨y, hy, hyv⟩
        · left
          exact ha
        · right
          exact ⟨y, hy, hyv⟩
      · rcases ih b x h2 with ha | ⟨y, hy, hyv⟩
        · right
          refine ⟨b, List.mem_cons_self b _, ?_⟩
          exact ha.symm
        · right
          exact ⟨y, List.mem_cons_of_mem b hy, hyv⟩

/-- For every element of a list, the consecutive-deduplicated list
contains an element with the same value. -/
theorem dedupByValue_value_mem (l : List (Parsed String)) (x : Parsed String)
    (hx : x ∈ l) : ∃ y ∈ dedupByValue l, y.value = x.value := by
  cases l with
  | nil => simp at hx
  | cons a t =>
    unfold dedupByValue
    rcases List.mem_cons.mp hx with h1 | h2
    · subst h1
      exact ⟨x, List.mem_cons_self x _, rfl⟩
    · rcases dedupAux_value_mem t a x h2 with ha | ⟨y, hy, hyv⟩
      · exact ⟨a, List.mem_cons_self a _, ha.symm⟩
      · exact ⟨y, List.mem_cons_of_mem a hy, hyv⟩

/-- The function `positionBy` finds an index whenever some element satisfies the
predicate. -/
theorem positionBy_isSome (p : α → Bool) (l : List α)
    (h : ∃ x ∈ l, p x = true) : (positionBy p l).isSome = true := by
  induction l with
  | nil => simp at h
  | cons a t ih =>
    obtain ⟨x, hx, hpx⟩ := h
    unfold positionBy
    rcases List.mem_cons.mp hx with h1 | h2
    · subst h1
      simp [hpx]
    · split
      · simp
      · have hrec := ih ⟨x, h2, hpx⟩
        obtain ⟨j, hj⟩ := Option.isSome_iff_exists.mp hrec
        simp [hj]

/-- The rewrite loop succeeds as long as every processed bind parameter
has its value in the deduplicated list and in-range offsets. -/
theorem rewriteLoop_isSome (sqlStart : Nat) (deduped : List (Parsed String))
    (bps : List (Parsed String))
    (h : ∀ bp ∈ bps, (sqlStart + 1 ≤ bp.start ∧ sqlStart + 1 ≤ bp.stop)
      ∧ ∃ y ∈ deduped, y.value = bp.value) :
    ∀ sql, (QuerySql.rewriteLoop sqlStart deduped bps sql).isSome = true := by
  induction bps with
  | nil =>
    intro sql
    simp [QuerySql.rewriteLoop]
  | cons bp rest ih =>
    intro sql
    obtain ⟨⟨hs, he⟩, ⟨y, hy, hyv⟩⟩ := h bp (List.mem_cons_self bp rest)
    have hpos : (positionBy (fun x => x.value == bp.value) deduped).isSome = true :=
      positionBy_isSome _ _ ⟨y, hy, beq_iff_eq.mpr hyv⟩
    obtain ⟨idx, hidx⟩ := Option.isSome_iff_exists.mp hpos
    have hcond : ¬(bp.start < sqlStart + 1 ∨ bp.stop < sqlStart + 1) := by omega
    have hstep : QuerySql.normalizeStep sqlStart deduped sql bp =
        some (replaceRange sql (bp.start - sqlStart - 1) (bp.stop - sqlStart - 1)
          (formatDollar (idx + 1))) := by
      unfold QuerySql.normalizeStep
      rw [hidx]
      exact if_neg hcond
    unfold QuerySql.rewriteLoop
    rw [hstep]
    exact ih (fun b hb => h b (List.mem_cons_of_mem bp hb)) _

/-- The `map_with_span` closure of `QuerySql::parser` never panics: the
nested `parse_bind` parse succeeds, every bind parameter is found in the
sorted-deduplicated list, and the offset arithmetic never underflows. -/
theorem mk'_isSome (sqlChars : List Char) (sqlStart : Nat) :
    (QuerySql.mk' sqlChars sqlStart).isSome = true := by
  have htot := sepBy_isSome (ignoreThen (pjust [':']) ident) QuerySql.sql_escaping
    true true (sqlChars, 0)
  obtain ⟨⟨bs, s'⟩, heq⟩ := Option.isSome_iff_exists.mp htot
  have hbounds := parse_bind_bounds heq
  have hloop : (QuerySql.rewriteLoop sqlStart
      (dedupByValue (sortByValue (bs.map (fun bp =>
        { start := bp.start + sqlStart, stop := bp.stop + sqlStart,
          value := bp.value }))))
      (bs.map (fun bp =>
        { start := bp.start + sqlStart, stop := bp.stop + sqlStart,
          value := bp.value })).reverse sqlChars).isSome = true := by
    apply rewriteLoop_isSome
    intro bp hbp
    rw [List.mem_reverse] at hbp
    constructor
    · obtain ⟨b0, hb0, hb0eq⟩ := List.mem_map.mp hbp
      obtain ⟨h1, h2⟩ := hbounds b0 hb0
      subst hb0eq
      constructor
      · show sqlStart + 1 ≤ b0.start + sqlStart
        omega
      · show sqlStart + 1 ≤ b0.stop + sqlStart
        omega
    · exact dedupByValue_value_mem _ bp ((mem_sortByValue bp _).mpr hbp)
  obtain ⟨sql1, hsql1⟩ := Option.isSome_iff_exists.mp hloop
  unfold QuerySql.mk'
  rw [show QuerySql.parse_bind (sqlChars, 0) = some (bs, s') from heq]
  dsimp only
  rw [hsql1]
  rfl

/-- Whenever `QuerySql::parser` accepts (finds a `;`-terminated
statement), the closure that normalizes the captured statement succeeds:
no panic. -/
theorem querySqlRun_no_panic {s r : PState} {o : Option QuerySql}
    (h : QuerySql.parserRun s = some (o, r)) : o.isSome = true := by
  unfold QuerySql.parserRun mapWithSpan at h
  split at h
  · rename_i a s1 heq
    have := Option.some.inj h
    have ho : o = QuerySql.mk' a s.2 := (congrArg Prod.fst this).symm
    rw [ho]
    exact mk'_isSome a s.2
  · exact absurd h (by simp)

/-- Claim C10. For every statement text accepted by the query-SQL parser
(any character sequence up to and including `;`), the two internal
`unwrap`s of `QuerySql::parser` never panic and the offset arithmetic
`start - sql_start - 1` never underflows: whenever
`QuerySql::parser` accepts, the normalized result is produced (first
conjunct), and in particular the nested `parse_bind` parse of the
captured statement never fails on *any* input — it can return an empty
bind list but never an error (second conjunct). -/
theorem querySql_parser_no_panic (s r : PState) (o : Option QuerySql)
    (h : QuerySql.parserRun s = some (o, r)) :
    o.isSome = true ∧ ∀ s2, (QuerySql.parse_bind s2).isSome = true :=
  ⟨querySqlRun_no_panic h,
    fun s2 => sepBy_isSome (ignoreThen (pjust [':']) ident) QuerySql.sql_escaping
      true true s2⟩

/-- Witness for C10, at the concrete statement `"x;"`. -/
theorem querySql_parser_no_panic_witness :
    (some ({ sql_str := "x", bind_params := [] } : QuerySql)).isSome = true
      ∧ ∀ s2, (QuerySql.parse_bind s2).isSome = true :=
  querySql_parser_no_panic (("x;").toList, 0) ([], 2)
    (some { sql_str := "x", bind_params := [] }) rfl

/-- The model of `Query::parser` never yields a panicking query. -/
theorem queryRun_no_panic {s r : PState} {o : Option Query}
    (h : Query.parserRun s = some (o, r)) : o.isSome = true := by
  unfold Query.parserRun at h
  obtain ⟨x, hx, hoeq⟩ := pmap_elim h
  obtain ⟨sm, _, hsql⟩ := pthen_elim hx
  have hsome := querySqlRun_no_panic hsql
  rw [hoeq]
  obtain ⟨q, hq⟩ := Option.isSome_iff_exists.mp hsome
  rw [hq]
  rfl

/-- A top-level declaration parse never yields a panicking statement. -/
theorem statementP_no_panic {s r : PState} {o : Option Statement}
    (h : statementP s = some (o, r)) : o.isSome = true := by
  unfold statementP por at h
  split at h
  · rename_i v heq
    have hv : v = (o, r) := Option.some.inj h
    subst hv
    obtain ⟨t, _, hoeq⟩ := pmap_elim heq
    rw [hoeq]
    rfl
  · obtain ⟨oq, hq, hoeq⟩ := pmap_elim h
    have hsome := queryRun_no_panic hq
    rw [hoeq]
    obtain ⟨q, hqq⟩ := Option.isSome_iff_exists.mp hsome
    rw [hqq]
    rfl

/-- Sequencing a list of options succeeds when every element is `some`. -/
theorem optionList_isSome {l : List (Option α)} (h : ∀ a ∈ l, a.isSome = true) :
    (optionList l).isSome = true := by
  induction l with
  | nil => simp [optionList]
  | cons a t ih =>
    cases a with
    | none => exact absurd (h none (List.mem_cons_self _ _)) (by simp)
    | some v =>
      unfold optionList
      have hrec := ih (fun b hb => h b (List.mem_cons_of_mem _ hb))
      obtain ⟨lv, hlv⟩ := Option.isSome_iff_exists.mp hrec
      simp [hlv]

/-- Claim C9. For every path and input, `parse_query_module` returns either
a complete `ParsedModule` — in which case the underlying top-level parse
(with its `end()`) consumed the entire input — or a single `Error`
carrying that path; never a partial module, and never a panic (the `ok`
payload is always `some`).  Any input whose declaration-sequence parse
cannot consume the whole input (trailing unparsed content) falls into the
`Error` branch. -/
theorem parse_query_module_complete_or_error (path input : String) :
    (∃ m stmts off, moduleRun input = some (stmts, ([], off))
        ∧ parse_query_module path input = Except.ok (some m))
      ∨ (moduleRun input = none
        ∧ parse_query_module path input = Except.error { path := path }) := by
  cases h : moduleRun input with
  | none =>
    right
    refine ⟨rfl, ?_⟩
    unfold parse_query_module
    rw [h]
  | some pr =>
    left
    obtain ⟨stmts, st⟩ := pr
    have h' : (thenIgnore moduleDecls pend) (input.toList, 0) = some (stmts, st) := h
    obtain ⟨u, sm, hdecls, hpend⟩ := thenIgnore_elim h'
    obtain ⟨sm1, sm2⟩ := sm
    obtain ⟨hst, hempty⟩ := pend_elim hpend
    have hsm1 : sm1 = [] := hempty
    subst hsm1
    subst hst
    have hallsome : ∀ a ∈ stmts, a.isSome = true :=
      sepBy_mem statementP blank true true (fun a => a.isSome = true)
        (fun s a s' hs => statementP_no_panic hs) hdecls
    have hol := optionList_isSome hallsome
    obtain ⟨l, hl⟩ := Option.isSome_iff_exists.mp hol
    refine ⟨ParsedModule.fromStatements l, stmts, sm2, rfl, ?_⟩
    unfold parse_query_module
    rw [h]
    dsimp only
    rw [hl]
    rfl
